import Mathlib

/-!
Shallow embedding of `src/model/model.py` (MiniMind transformer decoder and
its sampling loop), used to check the natural-language specification against
the code.

Conventions of the embedding:
* Machine floats are idealised as exact rationals `ℚ`; the transcendental
  primitives the code calls (`torch.exp` inside softmax, `torch.rsqrt`,
  `F.silu`, `torch.sqrt`) are abstract parameters bundled in `Ops`, so every
  theorem about the network holds for any interpretation of those primitives
  (this is exactly "equal up to floating-point tolerance": both computations
  are the same exact-arithmetic expression).
* `float('-inf')` masking followed by `softmax` is embedded as a softmax whose
  support is restricted by a boolean `allowed` predicate: `exp(-inf) = 0`, so
  a masked entry contributes `0` weight and `0` to the normaliser, which is
  precisely what the masked positions contribute in the source.
* Dropout layers are identities: every claim under study stipulates dropout
  disabled (eval / inference mode), and `generate` runs under
  `torch.inference_mode()`.
* Tensor reshapes / transposes (`view`, `transpose`, `flatten`) are index
  bookkeeping and are embedded by indexing directly with the final indices.
-/

/-- Abstract numeric primitives of the source (`torch.exp` as used by
`F.softmax`, `torch.rsqrt`, `torch.sqrt`, `F.silu`).  Theorems quantify over
an arbitrary interpretation `E : Ops`. -/
structure Ops where
  exp : ℚ → ℚ
  rsqrt : ℚ → ℚ
  sqrt : ℚ → ℚ
  silu : ℚ → ℚ

/-- Modelled from the spec: `src/model/config.py` (class `LMConfig`) is
imported by `src/model/model.py` but is not included under `src/`; its fields
are taken from spec §3 "Configuration" and from their uses in
`src/model/model.py` (`dim`, `n_heads`, `n_kv_heads`, `n_layers`,
`vocab_size`, `hidden_dim` (optional), `multiple_of`, `norm_eps`,
`model_max_length`). -/
structure LMConfig where
  dim : ℕ
  nHeads : ℕ
  nKvHeads : ℕ
  nLayers : ℕ
  vocabSize : ℕ
  hiddenDim : Option ℕ
  multipleOf : ℕ
  normEps : ℚ
  maxSeqLen : ℕ

/-- `self.head_dim = args.dim // args.n_heads`. -/
def LMConfig.headDim (c : LMConfig) : ℕ := c.dim / c.nHeads

/-- `self.n_rep = self.n_local_heads // self.n_local_kv_heads`. -/
def LMConfig.nRep (c : LMConfig) : ℕ := c.nHeads / c.nKvHeads

/-- A feature vector, indexed by coordinate. -/
abbrev Vec (n : ℕ) := Fin n → ℚ

/-- Dot product. -/
def dot {n : ℕ} (u v : Vec n) : ℚ := ∑ i, u i * v i

/-- `nn.Linear(n, m, bias=False)`: `(matvec W v) o = ∑ i, W o i * v i`. -/
def matvec {m n : ℕ} (W : Fin m → Fin n → ℚ) (v : Vec n) : Vec m :=
  fun o => ∑ i, W o i * v i

/-- Total read of a `Fin`-indexed vector at a natural index (out-of-range
reads return `0`; they never occur on the source's shapes). -/
def atN {n : ℕ} (v : Fin n → ℚ) (i : ℕ) : ℚ :=
  if h : i < n then v ⟨i, h⟩ else 0

/-- `RMSNorm.forward`: `weight * (x * rsqrt(mean(x², dim=-1) + eps))`. -/
def rmsnorm (E : Ops) {n : ℕ} (eps : ℚ) (w x : Vec n) : Vec n :=
  fun d => w d * (x d * E.rsqrt ((∑ i, x i ^ 2) / (n : ℚ) + eps))

section Rotary

variable {α : Type} [Field α]

/-- `apply_rotary_emb` on one head vector: the vector is read as adjacent
(real, imaginary) pairs (`reshape(*shape[:-1], -1, 2)` +
`view_as_complex`), each pair is multiplied by the complex number
`cis f = (cos, sin)` for its frequency index `f`, and the result is
flattened back (`view_as_real` + `flatten`).  Generic in the scalar field so
the same definition serves the ℚ model and the ℝ norm-preservation claim. -/
def applyRotVec {n : ℕ} (cis : ℕ → α × α) (v : Fin n → α) : Fin n → α :=
  fun d =>
    let f : ℕ := (d : ℕ) / 2
    let a : α := if h : 2 * f < n then v ⟨2 * f, h⟩ else 0
    let b : α := if h : 2 * f + 1 < n then v ⟨2 * f + 1, h⟩ else 0
    if (d : ℕ) % 2 = 0 then a * (cis f).1 - b * (cis f).2
    else a * (cis f).2 + b * (cis f).1

end Rotary

/-- `precompute_pos_cis(dim, end, theta)`: entry `(p, f)` is
`polar(1, p * (1 / theta^(2f/dim))) = (cos, sin)` — the unit-magnitude
complex rotation for position `p` and frequency pair `f`.  Real-valued, used
by the rotary-norm claim. -/
noncomputable def precompute_pos_cis (dim : ℕ) (theta : ℝ) : ℕ → ℕ → ℝ × ℝ :=
  fun p f =>
    let freq : ℝ := 1 / theta ^ (((2 * f : ℕ) : ℝ) / (dim : ℝ))
    (Real.cos (p * freq), Real.sin (p * freq))

/-! ## `Attention` (`src/model/model.py`, class `Attention`) -/

/-- One position's key (or value) projections, one `Vec headDim` per
key/value head (`xk.view(bsz, seq_len, n_local_kv_heads, head_dim)`). -/
abbrev KVHeadVec (c : LMConfig) := Fin c.nKvHeads → Vec c.headDim

/-- One layer's KV cache: the key list and the value list, one entry per
already-processed position (`past_key_value`). -/
abbrev LayerCache (c : LMConfig) := List (KVHeadVec c) × List (KVHeadVec c)

/-- `repeat_kv` + `transpose`: query head `h` reads the key/value head
`h / n_rep` (`x[:, :, :, None, :].expand(...).reshape(...)` repeats each of
the `n_kv_heads` key/value heads `n_rep` times).  The source asserts
`n_heads % n_kv_heads == 0`, under which the index is always in range; the
out-of-range branch is dead totalisation. -/
def kvAt (c : LMConfig) (kv : KVHeadVec c) (h : Fin c.nHeads) : Vec c.headDim :=
  if hlt : (h : ℕ) / c.nRep < c.nKvHeads then kv ⟨(h : ℕ) / c.nRep, hlt⟩ else 0

/-- Query heads of one input position: `wq` projection, reshaped per head,
with rotary applied at absolute position `p`
(`xq = apply_rotary_emb(xq.view(...), pos_cis)` where the `pos_cis` slice
row for this call's row `n` is table row `start_pos + n`). -/
def qHeadsAt (c : LMConfig) (wq : Fin c.nHeads → Fin c.headDim → Vec c.dim)
    (posCis : ℕ → ℕ → ℚ × ℚ) (p : ℕ) (v : Vec c.dim) : Fin c.nHeads → Vec c.headDim :=
  fun h => applyRotVec (posCis p) (matvec (wq h) v)

/-- Key heads of one input position, rotary applied at absolute position `p`. -/
def kHeadsAt (c : LMConfig) (wk : Fin c.nKvHeads → Fin c.headDim → Vec c.dim)
    (posCis : ℕ → ℕ → ℚ × ℚ) (p : ℕ) (v : Vec c.dim) : KVHeadVec c :=
  fun h => applyRotVec (posCis p) (matvec (wk h) v)

/-- Value heads of one input position (no rotary: `xv` is not rotated). -/
def vHeads (c : LMConfig) (wv : Fin c.nKvHeads → Fin c.headDim → Vec c.dim)
    (v : Vec c.dim) : KVHeadVec c :=
  fun h => matvec (wv h) v

/-- `attn_weights = matmul(xq, xk^T) / sqrt(head_dim)`: one score. -/
def attnScore (E : Ops) (hd : ℕ) (q k : Vec hd) : ℚ :=
  dot q k / E.sqrt (hd : ℚ)

/-- Softmax normaliser of one attention row after `-inf` masking: masked
columns contribute `exp(-inf) = 0`. -/
def attnDenom (E : Ops) (hd : ℕ) (q : Vec hd) (ks : List (Vec hd))
    (allowed : ℕ → Bool) : ℚ :=
  ∑ j ∈ Finset.range ks.length,
    if allowed j then E.exp (attnScore E hd q (ks.getD j 0)) else 0

/-- Post-softmax attention probability of one row on key column `j`
(`F.softmax(attn_weights + mask, dim=-1)`): `0` on masked columns. -/
def attnProb (E : Ops) (hd : ℕ) (q : Vec hd) (ks : List (Vec hd))
    (allowed : ℕ → Bool) (j : ℕ) : ℚ :=
  if allowed j then
    E.exp (attnScore E hd q (ks.getD j 0)) / attnDenom E hd q ks allowed
  else 0

/-- One head's output for one query row: probability-weighted sum of the
value vectors (`matmul(attn_weights, xv)`). -/
def headAttn (E : Ops) (hd : ℕ) (q : Vec hd) (ks vs : List (Vec hd))
    (allowed : ℕ → Bool) : Vec hd :=
  fun d => ∑ j ∈ Finset.range ks.length,
    attnProb E hd q ks allowed j * (vs.getD j 0) d

/-- Element semantics of `attn_weights + self.mask[:, :, :seq_len, :seq_len]`
for the shapes the source actually runs (`seq_len ≤ model_max_length`):
* fresh pass (`pastLen = 0`): key count equals `seq_len`, the slice is the
  causal triangle, so column `j` of row `i` is unmasked iff `j ≤ i`;
* cached pass (`pastLen > 0`): the source only runs with `seq_len = 1`, the
  `1 × 1` slice holds `0` and broadcasts over the `pastLen + 1` key columns,
  so no column is masked.  (Any other shape combination raises a broadcast
  error in the source and is unreachable from `generate`.) -/
def maskAllowed (pastLen i j : ℕ) : Bool :=
  if pastLen = 0 then decide (j ≤ i) else true

/-- Per-call weights of one `Attention` module. -/
structure AttnWeights (c : LMConfig) where
  wq : Fin c.nHeads → Fin c.headDim → Vec c.dim
  wk : Fin c.nKvHeads → Fin c.headDim → Vec c.dim
  wv : Fin c.nKvHeads → Fin c.headDim → Vec c.dim
  wo : Fin c.dim → Fin c.nHeads → Fin c.headDim → ℚ

/-- Keys of the new tokens of one call: row `n` is projected from input row
`n` and rotated at absolute position `startPos + n`. -/
def newKeys (c : LMConfig) (W : AttnWeights c) (posCis : ℕ → ℕ → ℚ × ℚ)
    (startPos : ℕ) (x : List (Vec c.dim)) : List (KVHeadVec c) :=
  (List.range x.length).map fun n => kHeadsAt c W.wk posCis (startPos + n) (x.getD n 0)

/-- Values of the new tokens of one call. -/
def newVals (c : LMConfig) (W : AttnWeights c) (x : List (Vec c.dim)) :
    List (KVHeadVec c) :=
  x.map (vHeads c W.wv)

/-- One output row of attention: per query head, attend over that head's
(repeated) key/value columns, then concatenate heads and project with `wo`
(`output.transpose(1, 2).view(bsz, seq_len, -1)` then `self.wo`). -/
def attnRow (E : Ops) (c : LMConfig) (W : AttnWeights c)
    (q : Fin c.nHeads → Vec c.headDim) (keys vals : List (KVHeadVec c))
    (allowed : ℕ → Bool) : Vec c.dim :=
  fun o => ∑ h, ∑ d,
    W.wo o h d *
      headAttn E c.headDim (q h) (keys.map (fun k => kvAt c k h))
        (vals.map (fun v => kvAt c v h)) allowed d

/-- `Attention.forward`: project the new positions to q/k/v heads, rotate
queries and keys at absolute positions `startPos + n`, prepend the cached
keys/values (`torch.cat([past_key_value[i], x], dim=1)`), compute the masked
scaled-dot-product attention row per new position, and return the rows plus
(when `useCache`) the extended cache. -/
def attnForward (E : Ops) (c : LMConfig) (W : AttnWeights c)
    (posCis : ℕ → ℕ → ℚ × ℚ) (x : List (Vec c.dim)) (startPos : ℕ)
    (past : Option (LayerCache c)) (useCache : Bool) :
    List (Vec c.dim) × Option (LayerCache c) :=
  let pk := (past.getD ([], [])).1
  let pv := (past.getD ([], [])).2
  let keys := pk ++ newKeys c W posCis startPos x
  let vals := pv ++ newVals c W x
  let rows := (List.range x.length).map fun i =>
    attnRow E c W (qHeadsAt c W.wq posCis (startPos + i) (x.getD i 0)) keys vals
      (maskAllowed pk.length i)
  (rows, if useCache then some (keys, vals) else none)

/-! ## `FeedForward`, `MiniMindBlock`, `MiniMindLM.forward` -/

/-- The `hidden_dim is None` default of `FeedForward.__init__`:
`hidden_dim = int(2 * (4 * dim) / 3)` (float truncation = natural-number
division here, since `8·dim/3` has fractional part `0`, `1/3` or `2/3` and
double rounding cannot cross an integer), then
`multiple_of * ((hidden_dim + multiple_of - 1) // multiple_of)`. -/
def ffnHiddenDefault (dim multipleOf : ℕ) : ℕ :=
  multipleOf * ((8 * dim / 3 + multipleOf - 1) / multipleOf)

/-- The intermediate width actually used by `FeedForward`: the configured
value, or the default when the configuration leaves it unset. -/
def LMConfig.hiddenSize (c : LMConfig) : ℕ :=
  c.hiddenDim.getD (ffnHiddenDefault c.dim c.multipleOf)

/-- `FeedForward.forward` on one position:
`w2(silu(w1(x)) * w3(x))` (dropout disabled). -/
def ffnForward (E : Ops) (c : LMConfig)
    (w1 w3 : Fin c.hiddenSize → Vec c.dim) (w2 : Fin c.dim → Fin c.hiddenSize → ℚ)
    (x : Vec c.dim) : Vec c.dim :=
  fun o => ∑ j, w2 o j * (E.silu (matvec w1 x j) * matvec w3 x j)

/-- Weights of one `MiniMindBlock`. -/
structure BlockWeights (c : LMConfig) where
  attnNormW : Vec c.dim
  ffnNormW : Vec c.dim
  attn : AttnWeights c
  w1 : Fin c.hiddenSize → Vec c.dim
  w2 : Fin c.dim → Fin c.hiddenSize → ℚ
  w3 : Fin c.hiddenSize → Vec c.dim

/-- The residual part of `MiniMindBlock.forward` after attention:
`h = x + h_attn`; `out = h + feed_forward(ffn_norm(h))`. -/
def blockPost (E : Ops) (c : LMConfig) (B : BlockWeights c)
    (x attnOut : List (Vec c.dim)) : List (Vec c.dim) :=
  let h := List.zipWith (· + ·) x attnOut
  List.zipWith (· + ·) h
    (h.map fun v => ffnForward E c B.w1 B.w3 B.w2 (rmsnorm E c.normEps B.ffnNormW v))

/-- `MiniMindBlock.forward`:
`h_attn, past_kv = attention(attention_norm(x), pos_cis, past_key_value, use_cache)`,
then the residual part `blockPost`. -/
def blockForward (E : Ops) (c : LMConfig) (B : BlockWeights c)
    (posCis : ℕ → ℕ → ℚ × ℚ) (x : List (Vec c.dim)) (startPos : ℕ)
    (past : Option (LayerCache c)) (useCache : Bool) :
    List (Vec c.dim) × Option (LayerCache c) :=
  let ar := attnForward E c B.attn posCis (x.map (rmsnorm E c.normEps B.attnNormW))
    startPos past useCache
  (blockPost E c B x ar.1, ar.2)

/-- The layer loop of `MiniMindLM.forward`: thread the hidden states through
each block, giving block `i` the `i`-th cache entry, and collect the per-layer
returned caches in order (`past_kvs.append(past_kv)`). -/
def runLayers (E : Ops) (c : LMConfig) (posCis : ℕ → ℕ → ℚ × ℚ) :
    List (BlockWeights c) → List (Vec c.dim) → List (Option (LayerCache c)) →
    ℕ → Bool → List (Vec c.dim) × List (Option (LayerCache c))
  | [], h, _, _, _ => (h, [])
  | B :: Bs, h, pasts, startPos, useCache =>
    let r1 := blockForward E c B posCis h startPos (pasts.getD 0 none) useCache
    let r2 := runLayers E c posCis Bs r1.1 (pasts.drop 1) startPos useCache
    (r2.1, r1.2 :: r2.2)

/-- Weights and buffers of `MiniMindLM`.  `tokEmb` serves both as the
embedding table and (tied, `self.tok_embeddings.weight = self.output.weight`)
as the output projection.  `posCis` is the precomputed rotary buffer; over ℚ
its (transcendental, position-indexed) entries are abstract table data. -/
structure ModelWeights (c : LMConfig) where
  tokEmb : Fin c.vocabSize → Vec c.dim
  blocks : List (BlockWeights c)
  normW : Vec c.dim
  posCis : ℕ → ℕ → ℚ × ℚ

/-- `self.tok_embeddings(input_ids)` for a single token id (ids out of the
vocabulary raise in torch; dead totalisation branch). -/
def embLookup (c : LMConfig) (tab : Fin c.vocabSize → Vec c.dim) (t : ℕ) : Vec c.dim :=
  if h : t < c.vocabSize then tab ⟨t, h⟩ else 0

/-- `MiniMindLM.forward` for one sequence (batch entries are processed
independently by every tensor operation involved): embed the token ids
(dropout disabled), run the layers with the per-layer caches and the
`pos_cis[start_pos : start_pos + len]` slice, final-normalise, and project
with the tied embedding matrix.  Returns (logits per position, per-layer
caches), i.e. the `logits` / `past_key_values` fields of the returned
`CausalLMOutputWithPast`. -/
def modelForward (E : Ops) (c : LMConfig) (Wm : ModelWeights c) (tokens : List ℕ)
    (pasts : List (Option (LayerCache c))) (startPos : ℕ) (useCache : Bool) :
    List (Vec c.vocabSize) × List (Option (LayerCache c)) :=
  let h0 := tokens.map (embLookup c Wm.tokEmb)
  let r := runLayers E c Wm.posCis Wm.blocks h0 pasts startPos useCache
  (r.1.map fun v => fun t => dot (Wm.tokEmb t) (rmsnorm E c.normEps Wm.normW v), r.2)

/-- A fresh (no prior cache) call: `past_key_values=None` is
`[None] * len(self.layers)`. -/
def freshPasts (c : LMConfig) (Wm : ModelWeights c) : List (Option (LayerCache c)) :=
  List.replicate Wm.blocks.length none

/-- The incremental run of the incremental-decoding claim: one prompt pass
with no prior cache, then one single-token pass per element of `rest`, each
threading the returned per-layer cache and passing `start_pos` equal to the
number of tokens processed so far (= the cache length), exactly as
`generate` does (`start_pos = cur_pos - 1`).  Accumulates every produced
logits row. -/
def incrementalRun (E : Ops) (c : LMConfig) (Wm : ModelWeights c)
    (prompt rest : List ℕ) :
    List (Vec c.vocabSize) × List (Option (LayerCache c)) × ℕ :=
  let init := modelForward E c Wm prompt (freshPasts c Wm) 0 true
  rest.foldl
    (fun acc t =>
      let r := modelForward E c Wm [t] acc.2.1 acc.2.2 true
      (acc.1 ++ r.1, r.2, acc.2.2 + 1))
    (init.1, init.2, prompt.length)

/-! ## `MiniMindLM.generate` -/

/-- `seen_tokens = [set(output[i, :cur_pos].tolist()) for i in range(batch_size) if active_mask[i]]`:
the distinct tokens of each still-active row's written history, in batch
order but **compacted** (inactive rows are skipped, not kept as holes). -/
def seenTokens (active : List Bool) (histories : List (List ℕ)) : List (List ℕ) :=
  ((histories.zip active).filter (fun p => p.2)).map (fun p => p.1.dedup)

/-- `for i, tokens in enumerate(seen_tokens): logits[i, list(tokens)] *= rp_factor`:
row `i` of the logits — `i` being the *enumeration index over the compacted
list*, not the batch index — has every listed token's logit multiplied by
`rp_factor = 1 / rp`. -/
def applyRepPenalty (rpFactor : ℚ) (active : List Bool) (histories : List (List ℕ))
    (logits : List (List ℚ)) : List (List ℚ) :=
  let seen := seenTokens active histories
  logits.mapIdx fun i row =>
    match seen[i]? with
    | some toks => row.mapIdx fun t v => if t ∈ toks then v * rpFactor else v
    | none => row

/-- The `(logit, original index)` pairs that the top-p filter sorts
(`torch.sort` returns values and indices; `enumerate` + swap). -/
def topPPairs (row : List ℚ) : List (ℚ × ℕ) :=
  row.enum.map fun p => (p.2, p.1)

/-- The top-p keep mask of one logits row (`true` = the logit survives,
`false` = it is set to `-inf`):
sort descending (`torch.sort(logits, descending=True)`), softmax the sorted
row, take cumulative sums, mark `cum > top_p` for removal, shift the removal
mask right by one and clear its first entry
(`sorted_indices_to_remove[..., 1:] = sorted_indices_to_remove[..., :-1]`,
`sorted_indices_to_remove[..., 0] = False`), then scatter back through the
sort indices. -/
def topPKeep (E : Ops) (topP : ℚ) (row : List ℚ) : List Bool :=
  let sorted := (topPPairs row).mergeSort fun a b => decide (b.1 ≤ a.1)
  let exps := sorted.map fun p => E.exp p.1
  let total := exps.sum
  let probs := exps.map (· / total)
  let cums := (List.range probs.length).map fun k => (probs.take (k + 1)).sum
  let removeRaw := cums.map fun cp => decide (topP < cp)
  let removeShifted := false :: removeRaw.dropLast
  (List.range row.length).map fun i =>
    match (sorted.zip removeShifted).find? (fun pr => pr.1.2 == i) with
    | some pr => !pr.2
    | none => true

/-- The whole top-p transform of one `generate` step: applied only when
`top_p < 1.0`; otherwise every logit survives. -/
def topPStepKeep (E : Ops) (topP : ℚ) (row : List ℚ) : List Bool :=
  if topP < 1 then topPKeep E topP row else row.map fun _ => true

/-- `probs = F.softmax(logits, dim=-1)` over a row whose removed entries were
set to `-inf`: removed entries have probability `0` and do not contribute to
the normaliser. -/
def maskedSoftmaxList (E : Ops) (keep : List Bool) (row : List ℚ) : List ℚ :=
  let total := ((row.zip keep).map fun p => if p.2 then E.exp p.1 else 0).sum
  (row.zip keep).map fun p => if p.2 then E.exp p.1 / total else 0

/-- The mutable state of one `generate` call (spec §3 "GenerationState"):
output buffer, `active_mask`, `eos_reached`, and the per-row, per-layer KV
caches (`None` before the first forward pass). -/
structure GenState (c : LMConfig) where
  output : List (List ℕ)
  activeMask : List Bool
  eosReached : List Bool
  past : Option (List (List (Option (LayerCache c))))

/-- One iteration of the `for cur_pos in range(seq_length, max_seq_len)` loop
of `MiniMindLM.generate`:
forward pass (whole buffer prefix on the first pass, the single token
`output[:, cur_pos-1]` with `start_pos = cur_pos - 1` afterwards), last-row
logits, temperature scaling by `1 / (temperature + 1e-9)`, repetition
penalty when `rp != 1.0`, top-p masking when `top_p < 1.0`, softmax, one
sampled token per row (`torch.multinomial` is modelled by the sampling
oracle `sample cur_pos row_idx probs`), write-back only on still-active
rows, and the `eos_reached` / `active_mask` update. -/
def genStep (E : Ops) (c : LMConfig) (Wm : ModelWeights c)
    (sample : ℕ → ℕ → List ℚ → ℕ) (eosId padId : ℕ)
    (invTemp rp rpFactor topP : ℚ) (useCache : Bool) (cur : ℕ)
    (st : GenState c) : GenState c :=
  let results : List (List (Vec c.vocabSize) × List (Option (LayerCache c))) :=
    match st.past with
    | none =>
      st.output.map (fun row =>
        modelForward E c Wm (row.take cur) (freshPasts c Wm) 0 useCache)
    | some cs =>
      (st.output.zip cs).map (fun rc =>
        modelForward E c Wm [rc.1.getD (cur - 1) 0] rc.2 (cur - 1) useCache)
  let logits0 : List (List ℚ) :=
    results.map (fun r => List.ofFn (r.1.getD (r.1.length - 1) 0))
  let newPast := results.map (fun r => r.2)
  let logits1 := logits0.map (List.map fun v => v * invTemp)
  let logits2 :=
    if rp = 1 then logits1
    else applyRepPenalty rpFactor st.activeMask
      (st.output.map fun row => row.take cur) logits1
  let keep := logits2.map (topPStepKeep E topP)
  let nexts : List ℕ := (List.range st.output.length).map fun i =>
    sample cur i (maskedSoftmaxList E (keep.getD i []) (logits2.getD i []))
  let output1 := (List.range st.output.length).map fun i =>
    if st.activeMask.getD i false then (st.output.getD i []).set cur (nexts.getD i 0)
    else st.output.getD i []
  let eos1 := (List.range st.eosReached.length).map fun i =>
    if st.activeMask.getD i false then decide (nexts.getD i 0 = eosId)
    else st.eosReached.getD i false
  { output := output1, activeMask := eos1.map (fun b => !b), eosReached := eos1,
    past := some newPast }

/-- The decode loop over the remaining positions, with the early exit
`if not active_mask.any(): break` at the top of each iteration (the
bottom-of-loop break only shortcuts the next iteration's identical check and
does not change the final state). -/
def genLoop (E : Ops) (c : LMConfig) (Wm : ModelWeights c)
    (sample : ℕ → ℕ → List ℚ → ℕ) (eosId padId : ℕ)
    (invTemp rp rpFactor topP : ℚ) (useCache : Bool) :
    List ℕ → GenState c → GenState c
  | [], st => st
  | cur :: ps, st =>
    if st.activeMask.any id then
      genLoop E c Wm sample eosId padId invTemp rp rpFactor topP useCache ps
        (genStep E c Wm sample eosId padId invTemp rp rpFactor topP useCache cur st)
    else st

/-- `MiniMindLM.generate`.  The output buffer
`torch.full((batch, seq_length + max_new_tokens), pad)` with the prompt
copied into its first `seq_length` columns is, row by row (rows of a tensor
all have length `seq_length`), the prompt row followed by `max_new_tokens`
pad entries.  `sample` is the oracle for `torch.multinomial`'s draws. -/
def generate (E : Ops) (c : LMConfig) (Wm : ModelWeights c)
    (sample : ℕ → ℕ → List ℚ → ℕ) (inputIds : List (List ℕ)) (eosId : ℕ)
    (maxNewTokens : ℕ) (temperature topP rp : ℚ) (useCache : Bool)
    (padId : ℕ) : List (List ℕ) :=
  let seqLength := (inputIds.headD []).length
  let out0 := inputIds.map fun row => row ++ List.replicate maxNewTokens padId
  let st0 : GenState c :=
    { output := out0, activeMask := inputIds.map fun _ => true,
      eosReached := inputIds.map fun _ => false, past := none }
  let invTemp : ℚ := 1 / (temperature + 1 / 1000000000)
  let rpFactor : ℚ := 1 / rp
  (genLoop E c Wm sample eosId padId invTemp rp rpFactor topP useCache
    (List.range' seqLength maxNewTokens) st0).output

/-! ## Length bookkeeping -/

theorem length_newKeys (c : LMConfig) (W : AttnWeights c) (pc : ℕ → ℕ → ℚ × ℚ)
    (sp : ℕ) (x : List (Vec c.dim)) : (newKeys c W pc sp x).length = x.length := by
  simp [newKeys]

theorem length_newVals (c : LMConfig) (W : AttnWeights c) (x : List (Vec c.dim)) :
    (newVals c W x).length = x.length := by
  simp [newVals]

theorem attnForward_fst_length (E : Ops) (c : LMConfig) (W : AttnWeights c)
    (pc : ℕ → ℕ → ℚ × ℚ) (x : List (Vec c.dim)) (sp : ℕ)
    (past : Option (LayerCache c)) (uc : Bool) :
    (attnForward E c W pc x sp past uc).1.length = x.length := by
  simp [attnForward]

theorem blockPost_length (E : Ops) (c : LMConfig) (B : BlockWeights c)
    (x attnOut : List (Vec c.dim)) (h : attnOut.length = x.length) :
    (blockPost E c B x attnOut).length = x.length := by
  simp [blockPost, h]

theorem blockForward_fst_length (E : Ops) (c : LMConfig) (B : BlockWeights c)
    (pc : ℕ → ℕ → ℚ × ℚ) (x : List (Vec c.dim)) (sp : ℕ)
    (past : Option (LayerCache c)) (uc : Bool) :
    (blockForward E c B pc x sp past uc).1.length = x.length := by
  simp [blockForward, blockPost, attnForward_fst_length]

theorem runLayers_fst_length (E : Ops) (c : LMConfig) (pc : ℕ → ℕ → ℚ × ℚ)
    (Bs : List (BlockWeights c)) (h : List (Vec c.dim))
    (pasts : List (Option (LayerCache c))) (sp : ℕ) (uc : Bool) :
    (runLayers E c pc Bs h pasts sp uc).1.length = h.length := by
  induction Bs generalizing h pasts with
  | nil => simp [runLayers]
  | cons B Bs ih =>
    simp [runLayers, ih, blockForward_fst_length]

theorem modelForward_fst_length (E : Ops) (c : LMConfig) (Wm : ModelWeights c)
    (tokens : List ℕ) (pasts : List (Option (LayerCache c))) (sp : ℕ) (uc : Bool) :
    (modelForward E c Wm tokens pasts sp uc).1.length = tokens.length := by
  simp [modelForward, runLayers_fst_length]

/-! ## Attention row lemmas -/

/-- Changing the `allowed` predicate outside the key range cannot change an
attention row; on the key range the two predicates agree, so the rows agree. -/
theorem headAttn_congr (E : Ops) (hd : ℕ) (q : Vec hd) (ks vs : List (Vec hd))
    (a₁ a₂ : ℕ → Bool) (h : ∀ j, j < ks.length → a₁ j = a₂ j) :
    headAttn E hd q ks vs a₁ = headAttn E hd q ks vs a₂ := by
  have hden : attnDenom E hd q ks a₁ = attnDenom E hd q ks a₂ :=
    Finset.sum_congr rfl fun j hj => by rw [h j (Finset.mem_range.mp hj)]
  funext d
  refine Finset.sum_congr rfl fun j hj => ?_
  have hj' := Finset.mem_range.mp hj
  simp only [attnProb, h j hj', hden]

/-- Keys/values appended past the unmasked range do not change an attention
row: the mask gives them probability `0` and they do not enter the softmax
normaliser. -/
theorem headAttn_append (E : Ops) (hd : ℕ) (q : Vec hd) (ks vs ke ve : List (Vec hd))
    (allowed : ℕ → Bool) (hvs : ks.length ≤ vs.length)
    (h : ∀ j, ks.length ≤ j → allowed j = false) :
    headAttn E hd q (ks ++ ke) (vs ++ ve) allowed = headAttn E hd q ks vs allowed := by
  have hden : attnDenom E hd q (ks ++ ke) allowed = attnDenom E hd q ks allowed := by
    unfold attnDenom
    rw [List.length_append]
    refine ((Finset.sum_subset (Finset.range_subset.mpr (Nat.le_add_right _ _))
      (fun j _ hj => ?_)).symm).trans (Finset.sum_congr rfl fun j hj => ?_)
    · have hge : ks.length ≤ j := Nat.le_of_not_lt fun hc => hj (Finset.mem_range.mpr hc)
      simp [h j hge]
    · have hlt := Finset.mem_range.mp hj
      rw [List.getD_append _ _ _ _ hlt]
  funext d
  rw [headAttn, headAttn, List.length_append]
  refine ((Finset.sum_subset (Finset.range_subset.mpr (Nat.le_add_right _ _))
    (fun j _ hj => ?_)).symm).trans (Finset.sum_congr rfl fun j hj => ?_)
  · have hge : ks.length ≤ j := Nat.le_of_not_lt fun hc => hj (Finset.mem_range.mpr hc)
    simp [attnProb, h j hge]
  · have hlt := Finset.mem_range.mp hj
    rw [attnProb, attnProb, hden, List.getD_append _ _ _ _ hlt,
      List.getD_append _ _ _ _ (Nat.lt_of_lt_of_le hlt hvs)]

theorem attnRow_congr (E : Ops) (c : LMConfig) (W : AttnWeights c)
    (q : Fin c.nHeads → Vec c.headDim) (keys vals : List (KVHeadVec c))
    (a₁ a₂ : ℕ → Bool) (h : ∀ j, j < keys.length → a₁ j = a₂ j) :
    attnRow E c W q keys vals a₁ = attnRow E c W q keys vals a₂ := by
  funext o
  refine Finset.sum_congr rfl fun hh _ => Finset.sum_congr rfl fun d _ => ?_
  rw [headAttn_congr E c.headDim (q hh) _ _ a₁ a₂ (by simpa using h)]

theorem attnRow_append (E : Ops) (c : LMConfig) (W : AttnWeights c)
    (q : Fin c.nHeads → Vec c.headDim) (keys vals ke ve : List (KVHeadVec c))
    (allowed : ℕ → Bool) (hvs : keys.length ≤ vals.length)
    (h : ∀ j, keys.length ≤ j → allowed j = false) :
    attnRow E c W q (keys ++ ke) (vals ++ ve) allowed = attnRow E c W q keys vals allowed := by
  funext o
  refine Finset.sum_congr rfl fun hh _ => Finset.sum_congr rfl fun d _ => ?_
  rw [List.map_append, List.map_append,
    headAttn_append E c.headDim (q hh) _ _ _ _ allowed (by simpa using hvs)
      (by simpa using h)]

/-! ## Single-token extension (the KV-cache invariant) -/

theorem newKeys_snoc (c : LMConfig) (W : AttnWeights c) (pc : ℕ → ℕ → ℚ × ℚ)
    (xs : List (Vec c.dim)) (x : Vec c.dim) :
    newKeys c W pc 0 (xs ++ [x]) =
      newKeys c W pc 0 xs ++ [kHeadsAt c W.wk pc xs.length x] := by
  unfold newKeys
  rw [List.length_append, List.length_singleton, List.range_succ, List.map_append]
  congr 1
  · refine List.map_congr_left fun n hn => ?_
    rw [List.getD_append _ _ _ _ (List.mem_range.mp hn)]
  · simp [List.getD_append_right]

theorem newVals_snoc (c : LMConfig) (W : AttnWeights c)
    (xs : List (Vec c.dim)) (x : Vec c.dim) :
    newVals c W (xs ++ [x]) = newVals c W xs ++ [vHeads c W.wv x] := by
  simp [newVals]

theorem attnForward_snoc (E : Ops) (c : LMConfig) (W : AttnWeights c)
    (pc : ℕ → ℕ → ℚ × ℚ) (xs : List (Vec c.dim)) (x : Vec c.dim) :
    attnForward E c W pc (xs ++ [x]) 0 none true =
      ((attnForward E c W pc xs 0 none true).1 ++
         (attnForward E c W pc [x] xs.length
           ((attnForward E c W pc xs 0 none true).2) true).1,
       (attnForward E c W pc [x] xs.length
           ((attnForward E c W pc xs 0 none true).2) true).2) := by
  have hklen : (newKeys c W pc 0 xs).length = xs.length := length_newKeys c W pc 0 xs
  have hvlen : (newVals c W xs).length = xs.length := length_newVals c W xs
  have hkeys1 : newKeys c W pc xs.length [x] = [kHeadsAt c W.wk pc xs.length x] := by
    unfold newKeys
    rw [show ([x] : List (Vec c.dim)).length = 1 from rfl,
      show List.range 1 = [0] by decide]
    simp
  have hvals1 : newVals c W [x] = [vHeads c W.wv x] := by
    simp [newVals]
  unfold attnForward
  simp only [Option.getD_none, Option.getD_some, List.nil_append, List.length_nil,
    hkeys1, hvals1, newKeys_snoc, newVals_snoc]
  refine Prod.ext ?_ rfl
  simp only [ite_true, Option.getD_some]
  rw [List.length_append, List.length_singleton, List.range_succ, List.map_append,
    show List.range 1 = [0] by decide]
  refine congrArg₂ (· ++ ·) ?_ ?_
  · refine List.map_congr_left fun i hi => ?_
    have hi' := List.mem_range.mp hi
    rw [List.getD_append _ _ _ _ hi',
      attnRow_append E c W _ _ _ _ _ _ (by rw [hklen, hvlen])
        (fun j hj => by
          rw [hklen] at hj
          simp only [maskAllowed, ite_true, if_pos rfl]
          simp [Nat.not_le.mpr (Nat.lt_of_lt_of_le hi' hj)])]
  · simp only [List.map_cons, List.map_nil, List.cons.injEq, and_true]
    rw [List.getD_append_right _ _ _ _ (Nat.le_refl _), Nat.sub_self, Nat.add_zero,
      Nat.zero_add]
    have hget : ([x] : List (Vec c.dim)).getD 0 0 = x := rfl
    rw [hget]
    refine attnRow_congr E c W _ _ _ _ _ fun j hj => ?_
    rw [List.length_append, List.length_singleton, hklen] at hj
    simp only [maskAllowed, hklen]
    rcases Nat.eq_zero_or_pos xs.length with h0 | hpos
    · simp [h0] at hj ⊢
    · have hne : xs.length ≠ 0 := Nat.pos_iff_ne_zero.mp hpos
      simp [hne, Nat.lt_succ_iff.mp hj]


theorem blockPost_append (E : Ops) (c : LMConfig) (B : BlockWeights c)
    (x₁ x₂ a₁ a₂ : List (Vec c.dim)) (h : x₁.length = a₁.length) :
    blockPost E c B (x₁ ++ x₂) (a₁ ++ a₂) =
      blockPost E c B x₁ a₁ ++ blockPost E c B x₂ a₂ := by
  unfold blockPost
  dsimp only
  rw [List.zipWith_append _ _ _ _ _ h, List.map_append,
    List.zipWith_append _ _ _ _ _ (List.length_map _ _).symm]

/-- `MiniMindBlock.forward` single-token extension: a fresh pass over
`xs ++ [x]` equals the fresh pass over `xs` followed by the cached
single-token pass on `[x]` with `start_pos = xs.length`, both in output rows
and in the returned cache. -/
theorem blockForward_snoc (E : Ops) (c : LMConfig) (B : BlockWeights c)
    (pc : ℕ → ℕ → ℚ × ℚ) (xs : List (Vec c.dim)) (x : Vec c.dim) :
    blockForward E c B pc (xs ++ [x]) 0 none true =
      ((blockForward E c B pc xs 0 none true).1 ++
         (blockForward E c B pc [x] xs.length
           ((blockForward E c B pc xs 0 none true).2) true).1,
       (blockForward E c B pc [x] xs.length
           ((blockForward E c B pc xs 0 none true).2) true).2) := by
  unfold blockForward
  dsimp only
  rw [List.map_append, List.map_singleton, attnForward_snoc, List.length_map]
  dsimp only
  refine Prod.ext ?_ rfl
  exact blockPost_append E c B xs [x] _ _
    (by rw [attnForward_fst_length, List.length_map])

/-- The layer loop preserves single-token extension: a fresh pass over
`hs ++ [hx]` through the whole stack equals the fresh pass over `hs`
followed by the single-token pass threading the returned per-layer caches
with `start_pos = hs.length`. -/
theorem runLayers_snoc (E : Ops) (c : LMConfig) (pc : ℕ → ℕ → ℚ × ℚ)
    (Bs : List (BlockWeights c)) (hs : List (Vec c.dim)) (hx : Vec c.dim) :
    runLayers E c pc Bs (hs ++ [hx]) (List.replicate Bs.length none) 0 true =
      ((runLayers E c pc Bs hs (List.replicate Bs.length none) 0 true).1 ++
         (runLayers E c pc Bs [hx]
           ((runLayers E c pc Bs hs (List.replicate Bs.length none) 0 true).2)
           hs.length true).1,
       (runLayers E c pc Bs [hx]
           ((runLayers E c pc Bs hs (List.replicate Bs.length none) 0 true).2)
           hs.length true).2) := by
  induction Bs generalizing hs hx with
  | nil => simp [runLayers]
  | cons B Bs ih =>
    have hlen1 : (blockForward E c B pc [hx] hs.length
        ((blockForward E c B pc hs 0 none true).2) true).1.length = 1 := by
      simp [blockForward_fst_length]
    obtain ⟨y, hy⟩ := List.length_eq_one.mp hlen1
    simp only [runLayers, List.length_cons, List.replicate_succ, List.getD_cons_zero,
      List.drop_succ_cons, List.drop_zero]
    rw [blockForward_snoc]
    dsimp only
    rw [hy]
    rw [ih ((blockForward E c B pc hs 0 none true).1) y]
    rw [blockForward_fst_length]

/-- `MiniMindLM.forward` single-token extension. -/
theorem modelForward_snoc (E : Ops) (c : LMConfig) (Wm : ModelWeights c)
    (xs : List ℕ) (t : ℕ) :
    modelForward E c Wm (xs ++ [t]) (freshPasts c Wm) 0 true =
      ((modelForward E c Wm xs (freshPasts c Wm) 0 true).1 ++
         (modelForward E c Wm [t]
           ((modelForward E c Wm xs (freshPasts c Wm) 0 true).2) xs.length true).1,
       (modelForward E c Wm [t]
           ((modelForward E c Wm xs (freshPasts c Wm) 0 true).2) xs.length true).2) := by
  unfold modelForward freshPasts
  dsimp only
  rw [List.map_append, List.map_singleton, runLayers_snoc, List.length_map]
  dsimp only
  refine Prod.ext ?_ rfl
  rw [List.map_append]

theorem incrementalRun_cons (E : Ops) (c : LMConfig) (Wm : ModelWeights c)
    (prompt : List ℕ) (t : ℕ) (rest : List ℕ) :
    incrementalRun E c Wm prompt (t :: rest) =
      incrementalRun E c Wm (prompt ++ [t]) rest := by
  unfold incrementalRun
  rw [List.foldl_cons]
  refine congrArg (fun a => List.foldl _ a rest) ?_
  dsimp only
  rw [modelForward_snoc]
  refine Prod.ext rfl (Prod.ext rfl ?_)
  simp

/-- The incremental run (prompt pass + single-token cached steps) computes
exactly the fresh full pass over the concatenated sequence: same logits rows
and same final per-layer caches. -/
theorem incrementalRun_spec (E : Ops) (c : LMConfig) (Wm : ModelWeights c)
    (prompt rest : List ℕ) :
    incrementalRun E c Wm prompt rest =
      ((modelForward E c Wm (prompt ++ rest) (freshPasts c Wm) 0 true).1,
       (modelForward E c Wm (prompt ++ rest) (freshPasts c Wm) 0 true).2,
       prompt.length + rest.length) := by
  induction rest generalizing prompt with
  | nil => simp [incrementalRun]
  | cons t rest ih =>
    rw [incrementalRun_cons, ih, List.append_assoc, List.singleton_append]
    refine Prod.ext rfl (Prod.ext rfl ?_)
    simp
    omega

/-! ## Causal locality of the fresh pass -/

/-- In a fresh full pass, the logits of the first `xs.length` positions of
`xs ++ ys` are exactly the logits of the fresh pass over `xs` alone. -/
theorem modelForward_fst_take (E : Ops) (c : LMConfig) (Wm : ModelWeights c)
    (xs ys : List ℕ) :
    ((modelForward E c Wm (xs ++ ys) (freshPasts c Wm) 0 true).1).take xs.length =
      (modelForward E c Wm xs (freshPasts c Wm) 0 true).1 := by
  induction ys generalizing xs with
  | nil =>
    rw [List.append_nil, ← modelForward_fst_length E c Wm xs (freshPasts c Wm) 0 true,
      List.take_length]
  | cons y ys ih =>
    have h1 : xs ++ y :: ys = (xs ++ [y]) ++ ys := by simp
    have h3 : xs.length ≤ (xs ++ [y]).length := by simp
    calc ((modelForward E c Wm (xs ++ y :: ys) (freshPasts c Wm) 0 true).1).take xs.length
        = (((modelForward E c Wm ((xs ++ [y]) ++ ys) (freshPasts c Wm) 0 true).1).take
            (xs ++ [y]).length).take xs.length := by
          rw [h1, List.take_take, min_eq_left h3]
      _ = ((modelForward E c Wm (xs ++ [y]) (freshPasts c Wm) 0 true).1).take xs.length := by
          rw [ih (xs ++ [y])]
      _ = ((modelForward E c Wm xs (freshPasts c Wm) 0 true).1 ++
            (modelForward E c Wm [y]
              ((modelForward E c Wm xs (freshPasts c Wm) 0 true).2) xs.length true).1).take
            xs.length := by rw [modelForward_snoc]
      _ = (modelForward E c Wm xs (freshPasts c Wm) 0 true).1 := by
          rw [← modelForward_fst_length E c Wm xs (freshPasts c Wm) 0 true]
          exact List.take_left _ _

theorem modelForward_fst_getD_of_lt (E : Ops) (c : LMConfig) (Wm : ModelWeights c)
    (xs ys : List ℕ) (t : ℕ) (ht : t < xs.length) :
    (modelForward E c Wm (xs ++ ys) (freshPasts c Wm) 0 true).1.getD t 0 =
      (modelForward E c Wm xs (freshPasts c Wm) 0 true).1.getD t 0 := by
  rw [← modelForward_fst_take E c Wm xs ys, List.getD_eq_getElem?_getD,
    List.getD_eq_getElem?_getD, List.getElem?_take, if_pos ht]

/-! ## Shared concrete instances (used by witnesses and counterexamples) -/

/-- Degenerate interpretation of the numeric primitives (constant `1`),
valid for instantiating theorems that hold for every interpretation. -/
def opsOne : Ops := ⟨fun _ => 1, fun _ => 1, fun _ => 1, fun _ => 1⟩

/-- A small concrete configuration: width 2, one head, one layer. -/
def cfgSmall : LMConfig :=
  { dim := 2, nHeads := 1, nKvHeads := 1, nLayers := 1, vocabSize := 3,
    hiddenDim := some 2, multipleOf := 64, normEps := 1 / 100000, maxSeqLen := 8 }

def blockSmall : BlockWeights cfgSmall :=
  { attnNormW := fun _ => 1, ffnNormW := fun _ => 1,
    attn := { wq := fun _ _ _ => 1, wk := fun _ _ _ => 1, wv := fun _ _ _ => 1,
              wo := fun _ _ _ => 1 },
    w1 := fun _ _ => 1, w2 := fun _ _ => 1, w3 := fun _ _ => 1 }

def wSmall : ModelWeights cfgSmall :=
  { tokEmb := fun t i => (t : ℚ) + (i : ℚ), blocks := [blockSmall],
    normW := fun _ => 1, posCis := fun p f => ((p : ℚ) + 1, (f : ℚ)) }

/-- A zero-layer concrete configuration with `model_max_length = 1`, used to
exercise the `generate` loop cheaply. -/
def cfgGen : LMConfig :=
  { dim := 1, nHeads := 1, nKvHeads := 1, nLayers := 0, vocabSize := 3,
    hiddenDim := some 1, multipleOf := 1, normEps := 1, maxSeqLen := 1 }

def wGen : ModelWeights cfgGen :=
  { tokEmb := fun t _ => (t : ℚ), blocks := [], normW := fun _ => 1,
    posCis := fun _ _ => (1, 0) }

/-! ## C1: incremental decoding equivalence -/

/-- **C1.** Incremental decoding equivalence: for every token sequence
shorter than the supported table extent, one fresh forward pass over the
whole sequence produces the same logits at every position as a prompt pass
followed by single-token decode steps that thread the returned per-layer
key/value caches with `start_pos` set to the cache length at each step
(dropout disabled, exact arithmetic, any interpretation `E` of the numeric
primitives). -/
theorem c1_incremental_decode_equiv (E : Ops) (c : LMConfig)
    (Wm : ModelWeights c) (prompt rest : List ℕ)
    (hlen : prompt.length + rest.length < c.maxSeqLen) :
    (incrementalRun E c Wm prompt rest).1 =
      (modelForward E c Wm (prompt ++ rest) (freshPasts c Wm) 0 true).1 := by
  rw [incrementalRun_spec]

/-- Witness for C1 at a concrete one-layer model. -/
theorem c1_incremental_decode_equiv_witness :
    (incrementalRun opsOne cfgSmall wSmall [0] [1, 2]).1 =
      (modelForward opsOne cfgSmall wSmall ([0] ++ [1, 2])
        (freshPasts cfgSmall wSmall) 0 true).1 :=
  c1_incremental_decode_equiv opsOne cfgSmall wSmall [0] [1, 2] (by decide)

/-! ## C2: causal noninterference -/

/-- **C2 (amended).** Causal noninterference for cache-free runs: logits at
position `t` of a fresh `MiniMindLM.forward` pass are unchanged by any
perturbation of tokens at positions `> t`; and in a cache-free pass the
attention probability assigned to any key column beyond the query's position
is zero.  (With a nonempty cache the mask slice broadcast degenerates to
all-zeros — see the counterexample — so the cache-free restriction is
necessary.) -/
theorem c2_causal_noninterference :
    (∀ (E : Ops) (c : LMConfig) (Wm : ModelWeights c) (ts1 ts2 : List ℕ) (t : ℕ),
      ts1.length < c.maxSeqLen → ts1.length = ts2.length → t < ts1.length →
      (∀ s, s ≤ t → ts1.getD s 0 = ts2.getD s 0) →
      (modelForward E c Wm ts1 (freshPasts c Wm) 0 true).1.getD t 0 =
        (modelForward E c Wm ts2 (freshPasts c Wm) 0 true).1.getD t 0) ∧
    (∀ (E : Ops) (hd : ℕ) (q : Vec hd) (ks : List (Vec hd)) (i j : ℕ),
      i < j → attnProb E hd q ks (maskAllowed 0 i) j = 0) := by
  constructor
  · intro E c Wm ts1 ts2 t _hmax hlen ht hpre
    have ht2 : t < ts2.length := hlen ▸ ht
    have hget : ∀ s : ℕ, s ≤ t → ts1[s]? = ts2[s]? := by
      intro s hs
      have hs1 : s < ts1.length := lt_of_le_of_lt hs ht
      have hs2 : s < ts2.length := hlen ▸ hs1
      have hv := hpre s hs
      rw [List.getD_eq_getElem _ _ hs1, List.getD_eq_getElem _ _ hs2] at hv
      rw [List.getElem?_eq_getElem hs1, List.getElem?_eq_getElem hs2]
      exact congrArg some hv
    have htake : ts1.take (t + 1) = ts2.take (t + 1) := by
      refine List.ext_getElem?_iff.mpr fun i => ?_
      rw [List.getElem?_take, List.getElem?_take]
      by_cases hi : i < t + 1
      · rw [if_pos hi, if_pos hi]
        exact hget i (Nat.lt_succ_iff.mp hi)
      · rw [if_neg hi, if_neg hi]
    have hlt1 : t < (ts1.take (t + 1)).length := by
      rw [List.length_take]
      exact lt_min (Nat.lt_succ_self t) ht
    have hlt2 : t < (ts2.take (t + 1)).length := by
      rw [List.length_take]
      exact lt_min (Nat.lt_succ_self t) ht2
    calc (modelForward E c Wm ts1 (freshPasts c Wm) 0 true).1.getD t 0
        = (modelForward E c Wm (ts1.take (t + 1) ++ ts1.drop (t + 1))
            (freshPasts c Wm) 0 true).1.getD t 0 := by
          rw [List.take_append_drop]
      _ = (modelForward E c Wm (ts1.take (t + 1))
            (freshPasts c Wm) 0 true).1.getD t 0 :=
          modelForward_fst_getD_of_lt E c Wm _ _ t hlt1
      _ = (modelForward E c Wm (ts2.take (t + 1))
            (freshPasts c Wm) 0 true).1.getD t 0 := by rw [htake]
      _ = (modelForward E c Wm (ts2.take (t + 1) ++ ts2.drop (t + 1))
            (freshPasts c Wm) 0 true).1.getD t 0 :=
          (modelForward_fst_getD_of_lt E c Wm _ _ t hlt2).symm
      _ = (modelForward E c Wm ts2 (freshPasts c Wm) 0 true).1.getD t 0 := by
          rw [List.take_append_drop]
  · intro E hd q ks i j hij
    simp [attnProb, maskAllowed, Nat.not_le.mpr hij]

/-- Witness for C2 (amended) at concrete inputs: positions `≤ 1` of
`[0, 1, 2]` and `[0, 1, 1]` agree, so their logits at position 1 agree; and
in a cache-free pass column 2 has probability 0 for query row 1. -/
theorem c2_causal_noninterference_witness :
    (modelForward opsOne cfgSmall wSmall [0, 1, 2]
        (freshPasts cfgSmall wSmall) 0 true).1.getD 1 0 =
      (modelForward opsOne cfgSmall wSmall [0, 1, 1]
        (freshPasts cfgSmall wSmall) 0 true).1.getD 1 0 ∧
    attnProb opsOne 2 (fun _ => 1) [fun _ => 1, fun _ => 1, fun _ => 1]
      (maskAllowed 0 1) 2 = 0 :=
  ⟨c2_causal_noninterference.1 opsOne cfgSmall wSmall [0, 1, 2] [0, 1, 1] 1
      (by decide) (by decide) (by decide) (by decide),
    c2_causal_noninterference.2 opsOne 2 (fun _ => 1)
      [fun _ => 1, fun _ => 1, fun _ => 1] 1 2 (by decide)⟩

/-- Counterexample to C2 as stated ("zero probability to future positions
regardless of cache state"): `Attention.forward` with a prior cache adds the
broadcast `1 × 1` slice `mask[:, :, :1, :1] = 0` to every key column
(`maskAllowed 2 0 j = true` for all `j`), so a single-token call at
`start_pos = 0` (query absolute position `0`) against a cache holding keys
of absolute positions `0` and `1` gives the *future* cached key column `1`
probability `1/3 ≠ 0`. -/
theorem c2_counterexample :
    maskAllowed 2 0 1 = true ∧
    attnProb opsOne 1 (fun _ => 1) [fun _ => 1, fun _ => 1, fun _ => 1]
      (maskAllowed 2 0) 1 = 1 / 3 ∧ ((1 : ℚ) / 3 ≠ 0) := by
  refine ⟨rfl, ?_, by norm_num⟩
  norm_num [attnProb, attnDenom, maskAllowed, opsOne, Finset.sum_range_succ]

/-! ## Generate-loop helper lemmas -/

theorem getD_map_range {β : Type} (n i : ℕ) (f : ℕ → β) (d : β) :
    ((List.range n).map f).getD i d = if i < n then f i else d := by
  rw [List.getD_eq_getElem?_getD, List.getElem?_map]
  by_cases h : i < n
  · rw [List.getElem?_range h, if_pos h]
    rfl
  · rw [if_neg h, List.getElem?_eq_none (by simpa using Nat.le_of_not_lt h)]
    rfl

theorem getD_set_ne {β : Type} (l : List β) (a i : ℕ) (v d : β) (h : i ≠ a) :
    (l.set a v).getD i d = l.getD i d := by
  rw [List.getD_eq_getElem?_getD, List.getD_eq_getElem?_getD,
    List.getElem?_set_ne (fun hc => h hc.symm)]

theorem getD_set_self {β : Type} (l : List β) (a : ℕ) (v d : β) (h : a < l.length) :
    (l.set a v).getD a d = v := by
  rw [List.getD_eq_getElem?_getD, List.getElem?_set_eq h]
  rfl

theorem getD_of_length_le {β : Type} (l : List β) (i : ℕ) (d : β)
    (h : l.length ≤ i) : l.getD i d = d := by
  rw [List.getD_eq_getElem?_getD, List.getElem?_eq_none h]
  rfl

/-! ## C7: zero-budget termination -/

/-- **C7.** With `max_new_tokens = 0` the decode loop body never runs and
`generate` returns exactly the input prompt ids, row for row. -/
theorem c7_zero_budget (E : Ops) (c : LMConfig) (Wm : ModelWeights c)
    (sample : ℕ → ℕ → List ℚ → ℕ) (inputIds : List (List ℕ)) (eosId : ℕ)
    (temperature topP rp : ℚ) (useCache : Bool) (padId : ℕ) :
    generate E c Wm sample inputIds eosId 0 temperature topP rp useCache padId =
      inputIds := by
  unfold generate genLoop
  simp

/-! ## C4: maximum-length edge policy -/

/-- The `torch.multinomial` oracle that always draws token `1`. -/
def smpOne : ℕ → ℕ → List ℚ → ℕ := fun _ _ _ => 1

/-- **C4 (amended).** The only "maximum length" `generate` enforces is the
call's own buffer length `seq_length + max_new_tokens`: when the prompt
already fills it (i.e. `max_new_tokens = 0`), the loop range is empty, the
loop exits immediately, zero new tokens are generated, and the returned
buffer holds exactly the prompt plus the (empty) pad tail.  `generate` makes
no check against the configured `model_max_length`. -/
theorem c4_budget_exhausted_exit (E : Ops) (c : LMConfig) (Wm : ModelWeights c)
    (sample : ℕ → ℕ → List ℚ → ℕ) (inputIds : List (List ℕ)) (eosId : ℕ)
    (maxNewTokens : ℕ) (temperature topP rp : ℚ) (useCache : Bool) (padId : ℕ)
    (hfull : (inputIds.headD []).length + maxNewTokens ≤ (inputIds.headD []).length) :
    generate E c Wm sample inputIds eosId maxNewTokens temperature topP rp
        useCache padId =
      inputIds.map (fun row => row ++ List.replicate maxNewTokens padId) := by
  have h0 : maxNewTokens = 0 := by omega
  subst h0
  unfold generate genLoop
  simp

theorem c4_budget_exhausted_exit_witness :
    generate opsOne cfgGen wGen smpOne [[0, 1]] 2 0 1 1 1 true 0 =
      [[0, 1]].map (fun row => row ++ List.replicate 0 0) :=
  c4_budget_exhausted_exit opsOne cfgGen wGen smpOne [[0, 1]] 2 0 1 1 1 true 0
    (by decide)

/-- Counterexample to C4 as stated: `cfgGen.model_max_length = 1` and the
prompt `[0]` already has length 1, yet `generate` with `max_new_tokens = 1`
runs a decode step and writes the sampled token `1 ≠ pad_token_id = 0` at
position 1 — the code has no guard against the configured maximum sequence
length, so a new token *is* generated (the buffer is not prompt-plus-pads). -/
theorem c4_counterexample :
    cfgGen.maxSeqLen = 1 ∧
    generate opsOne cfgGen wGen smpOne [[0]] 2 1 1 1 1 true 0 = [[0, 1]] ∧
    (1 : ℕ) ≠ 0 :=
  ⟨rfl, by decide, by decide⟩

/-! ## C10: prompt-prefix preservation -/

/-- One `generate` step writes only at column `cur`: every other column of
every row is unchanged. -/
theorem genStep_output_getD_ne (E : Ops) (c : LMConfig) (Wm : ModelWeights c)
    (sample : ℕ → ℕ → List ℚ → ℕ) (eosId padId : ℕ) (invTemp rp rpFactor topP : ℚ)
    (useCache : Bool) (cur : ℕ) (st : GenState c) (i p d : ℕ) (hp : p ≠ cur) :
    (((genStep E c Wm sample eosId padId invTemp rp rpFactor topP useCache cur
        st).output.getD i []).getD p d) =
      ((st.output.getD i []).getD p d) := by
  unfold genStep
  dsimp only
  rw [getD_map_range]
  by_cases hi : i < st.output.length
  · rw [if_pos hi]
    by_cases ha : st.activeMask.getD i false = true
    · rw [if_pos ha, getD_set_ne _ _ _ _ _ hp]
    · rw [if_neg ha]
  · rw [if_neg hi, getD_of_length_le st.output i [] (Nat.le_of_not_lt hi)]

/-- The decode loop never writes below the least remaining position. -/
theorem genLoop_output_getD_lt (E : Ops) (c : LMConfig) (Wm : ModelWeights c)
    (sample : ℕ → ℕ → List ℚ → ℕ) (eosId padId : ℕ) (invTemp rp rpFactor topP : ℚ)
    (useCache : Bool) (ps : List ℕ) (st : GenState c) (n i p d : ℕ)
    (hps : ∀ q ∈ ps, n ≤ q) (hp : p < n) :
    (((genLoop E c Wm sample eosId padId invTemp rp rpFactor topP useCache ps
        st).output.getD i []).getD p d) =
      ((st.output.getD i []).getD p d) := by
  induction ps generalizing st with
  | nil => rfl
  | cons cur ps ih =>
    rw [genLoop]
    by_cases hact : st.activeMask.any id = true
    · rw [if_pos hact]
      rw [ih _ (fun q hq => hps q (List.mem_cons_of_mem _ hq))]
      exact genStep_output_getD_ne E c Wm sample eosId padId invTemp rp rpFactor
        topP useCache cur st i p d
        (Nat.ne_of_lt (Nat.lt_of_lt_of_le hp (hps cur (List.mem_cons_self _ _))))
    · rw [if_neg hact]

/-- **C10.** Prompt-prefix preservation: every write of the decode loop
targets a column `≥ prompt_length`, so the first `prompt_length` entries of
every returned row equal the input prompt row. -/
theorem c10_prompt_region_preserved (E : Ops) (c : LMConfig) (Wm : ModelWeights c)
    (sample : ℕ → ℕ → List ℚ → ℕ) (inputIds : List (List ℕ)) (eosId : ℕ)
    (maxNewTokens : ℕ) (temperature topP rp : ℚ) (useCache : Bool) (padId : ℕ)
    (hrect : ∀ row ∈ inputIds, row.length = (inputIds.headD []).length)
    (i p : ℕ) (hp : p < (inputIds.headD []).length) :
    (((generate E c Wm sample inputIds eosId maxNewTokens temperature topP rp
        useCache padId).getD i []).getD p 0) =
      ((inputIds.getD i []).getD p 0) := by
  unfold generate
  dsimp only
  rw [genLoop_output_getD_lt E c Wm sample eosId padId _ rp _ topP useCache _ _
    (inputIds.headD []).length i p 0 (fun q hq => (List.mem_range'_1.mp hq).1) hp]
  dsimp only
  by_cases hi : i < inputIds.length
  · have hi2 : i <
        (List.map (fun row => row ++ List.replicate maxNewTokens padId)
          inputIds).length := by simpa using hi
    rw [List.getD_eq_getElem _ _ hi2, List.getD_eq_getElem _ _ hi, List.getElem_map]
    have hrow : (inputIds[i]).length = (inputIds.headD []).length :=
      hrect _ (List.getElem_mem hi)
    rw [List.getD_append _ _ _ _ (hrow ▸ hp)]
  · rw [getD_of_length_le
        (List.map (fun row => row ++ List.replicate maxNewTokens padId) inputIds)
        i [] (by simpa using Nat.le_of_not_lt hi),
      getD_of_length_le inputIds i [] (Nat.le_of_not_lt hi)]

theorem c10_prompt_region_preserved_witness :
    (((generate opsOne cfgGen wGen smpOne [[0], [1]] 2 1 1 1 1 true 0).getD 0
        []).getD 0 0) =
      ((([[0], [1]] : List (List ℕ)).getD 0 []).getD 0 0) :=
  c10_prompt_region_preserved opsOne cfgGen wGen smpOne [[0], [1]] 2 1 1 1 1
    true 0 (by decide) 0 0 (by decide)

/-! ## C6: finished sequences are never written again -/

theorem getD_replicate_self {β : Type} (n i : ℕ) (x : β) :
    (List.replicate n x).getD i x = x := by
  rw [List.getD_eq_getElem?_getD, List.getElem?_replicate]
  by_cases h : i < n
  · rw [if_pos h]
    rfl
  · rw [if_neg h]
    rfl

/-- Consistency invariant of the `generate` loop state: `active_mask` is the
negation of `eos_reached` (as the source maintains after every update) and
the tracking vectors have one entry per output row. -/
def stConsistent (c : LMConfig) (st : GenState c) : Prop :=
  st.activeMask = st.eosReached.map (fun b => !b) ∧
  st.eosReached.length = st.output.length

/-- All output columns `≥ n` still hold the pad value. -/
def tailPad (c : LMConfig) (padId n : ℕ) (st : GenState c) : Prop :=
  ∀ i q : ℕ, n ≤ q → (st.output.getD i []).getD q padId = padId

theorem genStep_stConsistent (E : Ops) (c : LMConfig) (Wm : ModelWeights c)
    (sample : ℕ → ℕ → List ℚ → ℕ) (eosId padId : ℕ) (invTemp rp rpFactor topP : ℚ)
    (useCache : Bool) (cur : ℕ) (st : GenState c) (h : stConsistent c st) :
    stConsistent c
      (genStep E c Wm sample eosId padId invTemp rp rpFactor topP useCache cur st) := by
  unfold genStep
  refine ⟨rfl, ?_⟩
  simp [h.2]

theorem genStep_tailPad (E : Ops) (c : LMConfig) (Wm : ModelWeights c)
    (sample : ℕ → ℕ → List ℚ → ℕ) (eosId padId : ℕ) (invTemp rp rpFactor topP : ℚ)
    (useCache : Bool) (cur : ℕ) (st : GenState c) (h : tailPad c padId cur st) :
    tailPad c padId (cur + 1)
      (genStep E c Wm sample eosId padId invTemp rp rpFactor topP useCache cur st) := by
  intro i q hq
  rw [genStep_output_getD_ne E c Wm sample eosId padId invTemp rp rpFactor topP
    useCache cur st i q padId (by omega)]
  exact h i q (by omega)

theorem genStep_frozen (E : Ops) (c : LMConfig) (Wm : ModelWeights c)
    (sample : ℕ → ℕ → List ℚ → ℕ) (eosId padId : ℕ) (invTemp rp rpFactor topP : ℚ)
    (useCache : Bool) (cur : ℕ) (st : GenState c) (i : ℕ)
    (hinv : stConsistent c st) (hfin : st.eosReached.getD i false = true) :
    (genStep E c Wm sample eosId padId invTemp rp rpFactor topP useCache cur
        st).output.getD i [] = st.output.getD i [] ∧
    (genStep E c Wm sample eosId padId invTemp rp rpFactor topP useCache cur
        st).eosReached.getD i false = true := by
  have hi : i < st.eosReached.length := by
    by_contra hge
    rw [getD_of_length_le _ _ _ (Nat.le_of_not_lt hge)] at hfin
    exact Bool.false_ne_true hfin
  have hio : i < st.output.length := hinv.2 ▸ hi
  have hact : st.activeMask.getD i false = false := by
    rw [hinv.1, List.getD_eq_getElem?_getD, List.getElem?_map,
      List.getElem?_eq_getElem hi]
    rw [List.getD_eq_getElem _ _ hi] at hfin
    simp [hfin]
  constructor
  · unfold genStep
    dsimp only
    rw [getD_map_range, if_pos hio, hact]
    simp
  · unfold genStep
    dsimp only
    rw [getD_map_range, if_pos hi, hact]
    simpa using hfin

theorem genLoop_frozen (E : Ops) (c : LMConfig) (Wm : ModelWeights c)
    (sample : ℕ → ℕ → List ℚ → ℕ) (eosId padId : ℕ) (invTemp rp rpFactor topP : ℚ)
    (useCache : Bool) (ps : List ℕ) (st : GenState c) (i : ℕ)
    (hinv : stConsistent c st) (hfin : st.eosReached.getD i false = true) :
    (genLoop E c Wm sample eosId padId invTemp rp rpFactor topP useCache ps
        st).output.getD i [] = st.output.getD i [] := by
  induction ps generalizing st with
  | nil => rfl
  | cons cur ps ih =>
    rw [genLoop]
    by_cases hact : st.activeMask.any id = true
    · rw [if_pos hact]
      rw [ih _ (genStep_stConsistent E c Wm sample eosId padId invTemp rp rpFactor
          topP useCache cur st hinv)
        (genStep_frozen E c Wm sample eosId padId invTemp rp rpFactor topP
          useCache cur st i hinv hfin).2]
      exact (genStep_frozen E c Wm sample eosId padId invTemp rp rpFactor topP
        useCache cur st i hinv hfin).1
    · rw [if_neg hact]

theorem getD_set_self_or {β : Type} (l : List β) (a : ℕ) (v d : β) :
    (l.set a v).getD a d = if a < l.length then v else d := by
  by_cases h : a < l.length
  · rw [if_pos h, getD_set_self _ _ _ _ h]
  · rw [if_neg h,
      getD_of_length_le _ _ _ (by simpa using Nat.le_of_not_lt h)]

/-- At the written column `cur`, one `generate` step either leaves a row
unchanged (inactive row, out-of-range row or out-of-range column), or its
`eos_reached` entry records exactly whether the newly written token is the
end-of-sequence id. -/
theorem genStep_cur_cases (E : Ops) (c : LMConfig) (Wm : ModelWeights c)
    (sample : ℕ → ℕ → List ℚ → ℕ) (eosId padId : ℕ) (invTemp rp rpFactor topP : ℚ)
    (useCache : Bool) (cur : ℕ) (st : GenState c) (i : ℕ)
    (hinv : stConsistent c st) :
    ((genStep E c Wm sample eosId padId invTemp rp rpFactor topP useCache cur
        st).output.getD i []).getD cur padId =
      (st.output.getD i []).getD cur padId ∨
    (genStep E c Wm sample eosId padId invTemp rp rpFactor topP useCache cur
        st).eosReached.getD i false =
      decide (((genStep E c Wm sample eosId padId invTemp rp rpFactor topP
        useCache cur st).output.getD i []).getD cur padId = eosId) := by
  unfold genStep
  dsimp only
  by_cases hio : i < st.output.length
  · by_cases hact : st.activeMask.getD i false = true
    · by_cases hc : cur < (st.output.getD i []).length
      · refine Or.inr ?_
        have hie : i < st.eosReached.length := hinv.2 ▸ hio
        rw [getD_map_range st.eosReached.length i _ false, if_pos hie,
          if_pos hact, getD_map_range st.output.length i _ [], if_pos hio,
          if_pos hact, getD_set_self_or, if_pos hc]
      · refine Or.inl ?_
        rw [getD_map_range st.output.length i _ [], if_pos hio, if_pos hact,
          getD_set_self_or, if_neg hc,
          getD_of_length_le (st.output.getD i []) cur padId (Nat.le_of_not_lt hc)]
    · refine Or.inl ?_
      rw [getD_map_range st.output.length i _ [], if_pos hio, if_neg hact]
  · refine Or.inl ?_
    rw [getD_map_range st.output.length i _ [], if_neg hio,
      getD_of_length_le st.output i [] (Nat.le_of_not_lt hio)]

/-- Once a row's freshly written token at column `p` is the end id, every
later column of that row in the final buffer still holds the pad value. -/
theorem genLoop_eos_seals (E : Ops) (c : LMConfig) (Wm : ModelWeights c)
    (sample : ℕ → ℕ → List ℚ → ℕ) (eosId padId : ℕ) (invTemp rp rpFactor topP : ℚ)
    (useCache : Bool) (hne : eosId ≠ padId) :
    ∀ (k cur : ℕ) (st : GenState c), stConsistent c st → tailPad c padId cur st →
    ∀ i p q : ℕ, cur ≤ p → p < q →
    (((genLoop E c Wm sample eosId padId invTemp rp rpFactor topP useCache
        (List.range' cur k) st).output.getD i []).getD p padId = eosId) →
    (((genLoop E c Wm sample eosId padId invTemp rp rpFactor topP useCache
        (List.range' cur k) st).output.getD i []).getD q padId = padId) := by
  intro k
  induction k with
  | zero =>
    intro cur st _hinv htail i p q hcp _hpq hfin
    exact absurd (hfin.symm.trans (htail i p hcp)) hne
  | succ k ih =>
    intro cur st hinv htail i p q hcp hpq hfin
    rw [show List.range' cur (k + 1) = cur :: List.range' (cur + 1) k from rfl,
      genLoop] at hfin ⊢
    by_cases hact : st.activeMask.any id = true
    · rw [if_pos hact] at hfin ⊢
      have hinv' := genStep_stConsistent E c Wm sample eosId padId invTemp rp
        rpFactor topP useCache cur st hinv
      have htail' := genStep_tailPad E c Wm sample eosId padId invTemp rp
        rpFactor topP useCache cur st htail
      rcases Nat.eq_or_lt_of_le hcp with hpc | hlt
      · -- p = cur: the final value at cur is what the step wrote
        have hpres : ((genLoop E c Wm sample eosId padId invTemp rp rpFactor topP
            useCache (List.range' (cur + 1) k)
            (genStep E c Wm sample eosId padId invTemp rp rpFactor topP useCache
              cur st)).output.getD i []).getD cur padId =
            ((genStep E c Wm sample eosId padId invTemp rp rpFactor topP useCache
              cur st).output.getD i []).getD cur padId :=
          genLoop_output_getD_lt E c Wm sample eosId padId invTemp rp rpFactor
            topP useCache _ _ (cur + 1) i cur padId
            (fun r hr => (List.mem_range'_1.mp hr).1) (Nat.lt_succ_self cur)
        rw [← hpc] at hfin
        rw [hpres] at hfin
        rcases genStep_cur_cases E c Wm sample eosId padId invTemp rp rpFactor
            topP useCache cur st i hinv with hsame | heq
        · rw [hsame] at hfin
          exact absurd (hfin.symm.trans (htail i cur (Nat.le_refl cur))) hne
        · have heos' : (genStep E c Wm sample eosId padId invTemp rp rpFactor
              topP useCache cur st).eosReached.getD i false = true := by
            rw [heq, hfin]
            simp
          rw [genLoop_frozen E c Wm sample eosId padId invTemp rp rpFactor topP
            useCache _ _ i hinv' heos']
          exact htail' i q (by omega)
      · exact ih (cur + 1) _ hinv' htail' i p q hlt hpq hfin
    · rw [if_neg hact] at hfin ⊢
      exact absurd (hfin.symm.trans (htail i p hcp)) hne

/-- **C6.** Batch independence of finished sequences: once a row's sampled
token at some column `p ≥ prompt_length` is the end-of-sequence id, every
later column of that row in the returned buffer equals `pad_token_id` —
the loop's write mask (`output[active_mask, cur_pos]`) never touches a
finished row again, whatever the other rows sample. -/
theorem c6_batch_independence (E : Ops) (c : LMConfig) (Wm : ModelWeights c)
    (sample : ℕ → ℕ → List ℚ → ℕ) (inputIds : List (List ℕ)) (eosId : ℕ)
    (maxNewTokens : ℕ) (temperature topP rp : ℚ) (useCache : Bool) (padId : ℕ)
    (hrect : ∀ row ∈ inputIds, row.length = (inputIds.headD []).length)
    (hne : eosId ≠ padId) (i p q : ℕ)
    (hp : (inputIds.headD []).length ≤ p) (hpq : p < q)
    (hfin : (((generate E c Wm sample inputIds eosId maxNewTokens temperature
      topP rp useCache padId).getD i []).getD p padId) = eosId) :
    (((generate E c Wm sample inputIds eosId maxNewTokens temperature topP rp
      useCache padId).getD i []).getD q padId) = padId := by
  unfold generate at hfin ⊢
  dsimp only at hfin ⊢
  refine genLoop_eos_seals E c Wm sample eosId padId _ rp _ topP useCache hne
    maxNewTokens (inputIds.headD []).length _ ⟨?_, ?_⟩ ?_ i p q hp hpq hfin
  · simp [List.map_map, Function.comp]
  · simp
  · intro j r hr
    by_cases hj : j < inputIds.length
    · have hj2 : j <
          (List.map (fun row => row ++ List.replicate maxNewTokens padId)
            inputIds).length := by simpa using hj
      rw [List.getD_eq_getElem _ _ hj2, List.getElem_map]
      have hrow : (inputIds[j]).length = (inputIds.headD []).length :=
        hrect _ (List.getElem_mem hj)
      rw [List.getD_append_right _ _ _ _ (by omega), getD_replicate_self]
    · rw [getD_of_length_le
        (List.map (fun row => row ++ List.replicate maxNewTokens padId) inputIds)
        j [] (by simpa using Nat.le_of_not_lt hj)]
      rfl

/-- Oracle drawing the end id (2) for row 0 and token 1 for other rows. -/
def smpEos : ℕ → ℕ → List ℚ → ℕ := fun _ i _ => if i = 0 then 2 else 1

theorem c6_batch_independence_witness :
    (((generate opsOne cfgGen wGen smpEos [[0], [1]] 2 3 1 1 1 true 0).getD 0
      []).getD 2 0) = 0 :=
  c6_batch_independence opsOne cfgGen wGen smpEos [[0], [1]] 2 3 1 1 1 true 0
    (by decide) (by decide) 0 1 2 (by decide) (by decide) (by decide)

/-! ## C3: repetition penalty row misalignment -/

/-- C3 failing-input evaluation.  Batch of two, sequence 0 already finished
(`active_mask = [False, True]`), `rp = 2` (`rp_factor = 1/2`), both rows'
logits `[4, 6]`, histories `[0]` and `[1]`.  The compacted
`seen_tokens = [{1}]` (only the active sequence 1), but `enumerate` pairs it
with logits **row 0**: the finished row 0 gets its token-1 logit halved
(`6 → 3`) while the active row 1 — whose claim-mandated penalty this was —
is returned unchanged. -/
theorem c3_repetition_penalty_misaligned :
    seenTokens [false, true] [[0], [1]] = [[1]] ∧
    applyRepPenalty (1 / 2) [false, true] [[0], [1]] [[4, 6], [4, 6]] =
      [[4, 3], [4, 6]] := by
  constructor
  · rfl
  · show (([[4, 6], [4, 6]] : List (List ℚ)).mapIdx _) = _
    norm_num [applyRepPenalty, seenTokens, List.mapIdx_cons, List.mapIdx_nil]

/-! ## C5: top-p never empties the candidate set -/

theorem topPPairs_mem (row : List ℚ) (x : ℚ × ℕ) (hx : x ∈ topPPairs row) :
    x.2 < row.length ∧ row.getD x.2 0 = x.1 := by
  obtain ⟨p, hp, hpe⟩ := List.mem_map.mp hx
  have h1 := List.mem_enum_iff_getElem?.mp hp
  have h2 : p.1 < row.length := List.fst_lt_of_mem_enum hp
  subst hpe
  refine ⟨h2, ?_⟩
  rw [List.getD_eq_getElem?_getD, h1]
  rfl

theorem topPPairs_mem_of_lt (row : List ℚ) (j : ℕ) (hj : j < row.length) :
    (row.getD j 0, j) ∈ topPPairs row := by
  have hmem : (j, row[j]) ∈ row.enum :=
    List.mem_enum_iff_getElem?.mpr (by rw [List.getElem?_eq_getElem hj])
  rw [List.getD_eq_getElem _ _ hj]
  exact List.mem_map_of_mem (fun p : ℕ × ℚ => (p.2, p.1)) hmem

/-- **C5.** The top-p masking step never empties the candidate set: for any
logits row and any `top_p ∈ (0, 1]`, some token with a maximal logit (hence
maximal softmax probability) keeps a finite logit — the removal mask is
shifted right by one with its first (sorted) slot cleared, so the sort's
top-1 token always survives; for `top_p = 1` the step is skipped entirely. -/
theorem c5_top_p_keeps_top_token (E : Ops) (topP : ℚ) (row : List ℚ)
    (h0 : 0 < topP) (h1 : topP ≤ 1) (hne : row ≠ []) :
    ∃ i, i < row.length ∧ (topPStepKeep E topP row).getD i false = true ∧
      ∀ j, j < row.length → row.getD j 0 ≤ row.getD i 0 := by
  by_cases hp : topP < 1
  case neg =>
    unfold topPStepKeep
    rw [if_neg hp]
    obtain ⟨m, hm⟩ : ∃ m, m ∈ row.argmax id := by
      cases hx : row.argmax id with
      | none => exact absurd (List.argmax_eq_none.mp hx) hne
      | some m => exact ⟨m, rfl⟩
    obtain ⟨i, hi, hieq⟩ := List.mem_iff_getElem.mp (List.argmax_mem hm)
    refine ⟨i, hi, ?_, ?_⟩
    · rw [List.getD_eq_getElem _ _ (by simpa using hi), List.getElem_map]
    · intro j hj
      rw [List.getD_eq_getElem _ _ hj, List.getD_eq_getElem _ _ hi, hieq]
      exact List.le_of_mem_argmax (List.getElem_mem hj) hm
  case pos =>
    unfold topPStepKeep
    rw [if_pos hp]
    unfold topPKeep
    dsimp only
    have hperm : ((topPPairs row).mergeSort fun a b => decide (b.1 ≤ a.1)).Perm
        (topPPairs row) := List.mergeSort_perm _ _
    have hsortlen :
        ((topPPairs row).mergeSort fun a b => decide (b.1 ≤ a.1)).length =
          row.length := by
      rw [hperm.length_eq]
      simp [topPPairs]
    have hsorted := @List.sorted_mergeSort (ℚ × ℕ)
      (fun a b : ℚ × ℕ => decide (b.1 ≤ a.1))
      (fun a b c hab hbc => by
        simp only [decide_eq_true_eq] at *
        exact le_trans hbc hab)
      (fun a b => by
        simp only [Bool.or_eq_true, decide_eq_true_eq]
        exact le_total b.1 a.1)
      (topPPairs row)
    cases hs : (topPPairs row).mergeSort fun a b => decide (b.1 ≤ a.1) with
    | nil =>
      rw [hs] at hsortlen
      exact absurd (List.length_eq_zero.mp hsortlen.symm) hne
    | cons hd tl =>
      have hhdmem : hd ∈ topPPairs row := hperm.mem_iff.mp (by rw [hs]; simp)
      obtain ⟨hhdlt, hhdval⟩ := topPPairs_mem row hd hhdmem
      refine ⟨hd.2, hhdlt, ?_, ?_⟩
      · rw [getD_map_range, if_pos hhdlt, List.zip_cons_cons,
          List.find?_cons_of_pos _ (by simp)]
        rfl
      · intro j hj
        rw [hhdval]
        have hmem : (row.getD j 0, j) ∈ topPPairs row := topPPairs_mem_of_lt row j hj
        have hmem2 : (row.getD j 0, j) ∈ hd :: tl := by
          rw [← hs]
          exact hperm.mem_iff.mpr hmem
        rcases List.mem_cons.mp hmem2 with heq | htl
        · rw [show row.getD j 0 = hd.1 from congrArg Prod.fst heq]
        · rw [hs] at hsorted
          have := (List.pairwise_cons.mp hsorted).1 _ htl
          simpa using this

theorem c5_top_p_keeps_top_token_witness :
    ∃ i, i < ([4, 6] : List ℚ).length ∧
      (topPStepKeep opsOne 1 [4, 6]).getD i false = true ∧
      ∀ j, j < ([4, 6] : List ℚ).length →
        ([4, 6] : List ℚ).getD j 0 ≤ ([4, 6] : List ℚ).getD i 0 :=
  c5_top_p_keeps_top_token opsOne 1 [4, 6] (by decide) (by decide) (by decide)

/-! ## C8: the feed-forward contract -/

/-- Spec-side definition, for refinement comparison only — it follows the
spec's words "round_up_to_multiple(2/3 · 4 · width, multiple)" with exact
arithmetic (no integer truncation before the round-up). -/
def ffnHiddenSpecRound (dim m : ℕ) : ℤ :=
  m * ⌈((2 : ℚ) / 3 * (4 * dim)) / m⌉

/-- **C8 (amended).** When `hidden_dim` is unset, `FeedForward` uses the
least multiple of `multiple_of` that is at least `int(2 · 4 · dim / 3)` —
i.e. `2/3 · 4 · dim` is *truncated to an integer first* and then rounded up
to the configured multiple; and the forward map `ffnForward`
(`w2(silu(w1 x) * w3 x)`, dropout disabled) acts independently per sequence
position, with no interaction across positions. -/
theorem c8_feedforward_contract :
    (∀ dim m : ℕ, 0 < m →
      ffnHiddenDefault dim m % m = 0 ∧
      8 * dim / 3 ≤ ffnHiddenDefault dim m ∧
      ffnHiddenDefault dim m < 8 * dim / 3 + m) ∧
    (∀ (E : Ops) (c : LMConfig) (w1 w3 : Fin c.hiddenSize → Vec c.dim)
      (w2 : Fin c.dim → Fin c.hiddenSize → ℚ) (xs : List (Vec c.dim)) (i : ℕ),
      i < xs.length →
      (xs.map (ffnForward E c w1 w3 w2)).getD i 0 =
        ffnForward E c w1 w3 w2 (xs.getD i 0)) := by
  constructor
  · intro dim m hm
    unfold ffnHiddenDefault
    set n := 8 * dim / 3 with hn
    set k := (n + m - 1) / m with hk
    have h1 : k * m ≤ n + m - 1 := Nat.div_mul_le_self _ _
    have h2 : n + m - 1 < k * m + m := by
      have := Nat.lt_mul_div_succ (n + m - 1) hm
      calc n + m - 1 < m * ((n + m - 1) / m + 1) := this
        _ = k * m + m := by rw [← hk, Nat.mul_add, Nat.mul_one, Nat.mul_comm]
    refine ⟨Nat.mul_mod_right _ _, ?_, ?_⟩
    · have : m * k = k * m := Nat.mul_comm m k
      omega
    · have : m * k = k * m := Nat.mul_comm m k
      omega
  · intro E c w1 w3 w2 xs i hi
    rw [List.getD_eq_getElem _ _ (by simpa using hi),
      List.getD_eq_getElem _ _ hi, List.getElem_map]

/-- Witness for C8 at `dim = 512`, `multiple_of = 64` (giving width 1408)
and a concrete two-position sequence. -/
theorem c8_feedforward_contract_witness :
    (ffnHiddenDefault 512 64 % 64 = 0 ∧
      8 * 512 / 3 ≤ ffnHiddenDefault 512 64 ∧
      ffnHiddenDefault 512 64 < 8 * 512 / 3 + 64) ∧
    (([fun _ => 1, fun _ => 2] : List (Vec cfgSmall.dim)).map
        (ffnForward opsOne cfgSmall (fun _ _ => 1) (fun _ _ => 1)
          (fun _ _ => 1))).getD 1 0 =
      ffnForward opsOne cfgSmall (fun _ _ => 1) (fun _ _ => 1) (fun _ _ => 1)
        (([fun _ => 1, fun _ => 2] : List (Vec cfgSmall.dim)).getD 1 0) :=
  ⟨c8_feedforward_contract.1 512 64 (by decide),
    c8_feedforward_contract.2 opsOne cfgSmall _ _ _ _ 1 (by decide)⟩

/-- Counterexample to C8 as stated: with `dim = 1`, `multiple_of = 1` the
code computes `int(8/3) = 2` and rounds up to `2`, while the spec's exact
`round_up_to_multiple(2/3 · 4 · 1, 1) = ⌈8/3⌉ = 3`. -/
theorem c8_counterexample :
    (ffnHiddenDefault 1 1 : ℤ) = 2 ∧ ffnHiddenSpecRound 1 1 = 3 ∧
    (ffnHiddenDefault 1 1 : ℤ) ≠ ffnHiddenSpecRound 1 1 := by
  have h1 : (ffnHiddenDefault 1 1 : ℤ) = 2 := by decide
  have h2 : ffnHiddenSpecRound 1 1 = 3 := by
    unfold ffnHiddenSpecRound
    rw [show ((2 : ℚ) / 3 * (4 * (1 : ℕ))) / (1 : ℕ) = 8 / 3 by norm_num]
    norm_num [Int.ceil_eq_iff]
  exact ⟨h1, h2, by rw [h1, h2]; decide⟩

/-! ## C9: rotary application preserves pair magnitudes -/

/-- **C9.** Rotary norm preservation: every entry of the precomputed table is
a unit-magnitude rotation (`cos² + sin² = 1`), and applying
`apply_rotary_emb` to any head vector leaves the squared magnitude of every
adjacent 2-D coordinate pair unchanged (exactly, in real arithmetic — hence
within any numeric tolerance in floats), for every position within the
precomputed table extent (`end = 32 · 1024`). -/
theorem c9_rotary_norm_preserving (dim : ℕ) (theta : ℝ) (n : ℕ)
    (v : Fin n → ℝ) (p f : ℕ) (hp : p < 32 * 1024) (hf : 2 * f + 1 < n) :
    ((precompute_pos_cis dim theta p f).1 ^ 2 +
        (precompute_pos_cis dim theta p f).2 ^ 2 = 1) ∧
    (applyRotVec (precompute_pos_cis dim theta p) v
          ⟨2 * f, by omega⟩) ^ 2 +
      (applyRotVec (precompute_pos_cis dim theta p) v
          ⟨2 * f + 1, by omega⟩) ^ 2 =
      (v ⟨2 * f, by omega⟩) ^ 2 + (v ⟨2 * f + 1, by omega⟩) ^ 2 := by
  have hunit : (precompute_pos_cis dim theta p f).1 ^ 2 +
      (precompute_pos_cis dim theta p f).2 ^ 2 = 1 := by
    unfold precompute_pos_cis
    exact Real.cos_sq_add_sin_sq _
  refine ⟨hunit, ?_⟩
  unfold applyRotVec
  have hdiv0 : (2 * f : ℕ) / 2 = f := by omega
  have hdiv1 : (2 * f + 1 : ℕ) / 2 = f := by omega
  have hmod0 : (2 * f : ℕ) % 2 = 0 := by omega
  have hmod1 : (2 * f + 1 : ℕ) % 2 ≠ 0 := by omega
  dsimp only
  rw [hdiv0, hdiv1, if_pos hmod0, if_neg hmod1,
    dif_pos (show 2 * f < n by omega), dif_pos hf]
  set a := v ⟨2 * f, by omega⟩
  set b := v ⟨2 * f + 1, by omega⟩
  linear_combination (a ^ 2 + b ^ 2) * hunit

/-- Witness for C9 at `theta = 10⁶`, position 5, frequency pair 0 of a
2-dimensional head. -/
theorem c9_rotary_norm_preserving_witness :
    ((precompute_pos_cis 2 1000000 5 0).1 ^ 2 +
        (precompute_pos_cis 2 1000000 5 0).2 ^ 2 = 1) ∧
    (applyRotVec (precompute_pos_cis 2 1000000 5) (fun _ : Fin 2 => 3)
          ⟨0, by omega⟩) ^ 2 +
      (applyRotVec (precompute_pos_cis 2 1000000 5) (fun _ : Fin 2 => 3)
          ⟨1, by omega⟩) ^ 2 =
      ((fun _ : Fin 2 => (3 : ℝ)) ⟨0, by omega⟩) ^ 2 +
        ((fun _ : Fin 2 => (3 : ℝ)) ⟨1, by omega⟩) ^ 2 :=
  c9_rotary_norm_preserving 2 1000000 2 (fun _ => 3) 5 0 (by decide) (by decide)
